import Mathlib

/-!
# Verification of the pysuchsel placement engine (`Suchsel.py`)

This file gives a shallow embedding of the word-placement engine of
`Suchsel.py` and settles a list of claims about it.

Modelling conventions:

* Grid cell content (`Cell`) is a tagged variant of the three Python value
  kinds that are ever stored in `self._grid`: a single-character string
  (`letter`), an `ArrowMarker` (`arrow`, carrying its `marking` character
  and `direction` label string), and a `VoidPlaceholder` (`voidMark`).
* The grid `self._grid` is a Python dict keyed by `(x, y)` integer pairs.
  We model it as an association list in insertion order (`GridMap`), which
  is exactly a Python dict's observable structure: `dget` is `dict.get`,
  `dset` is item assignment (updating an existing key in place, appending
  a fresh key at the end), `List.length` is `len`.
* Python exceptions (`NotImplementedError`, `KeyError`, `IndexError`) are
  modelled with `Except String` / `Option` / explicit outcome constructors;
  the carried string is the offending rule name where the source raises
  `NotImplementedError(rulename)`.
* Randomness (`self._placement.event()`, `random.randint`) is injected:
  functions take the sampled rule and origin as explicit arguments, and the
  retry loops take a stream `Nat → String × Int × Int` of draws.
* Python `==` of grid values (`pyEq`): equal one-character strings are
  equal; `VoidPlaceholder.__eq__` makes any two void placeholders equal;
  `ArrowMarker` has no `__eq__`, so comparison is object identity, and the
  engine only ever compares a freshly constructed marker (made inside
  `_find_rule`) or a character against stored markers, which is always
  `False`.  `None == v` is `False`.
-/

/-- Grid cell content: Python `str` (single char), `ArrowMarker`,
`VoidPlaceholder`. -/
inductive Cell where
  | letter (c : Char)
  | arrow (marking : Char) (direction : String)
  | voidMark
  deriving DecidableEq, Repr

/-- Python `==` between two stored/placed values; see the header notes.
`arrow` vs `arrow` is identity comparison of distinct objects, hence
`false` in every comparison the engine performs. -/
def pyEq : Cell → Cell → Bool
  | .letter a, .letter b => a = b
  | .voidMark, .voidMark => true
  | _, _ => false

/-- Python `present == want` where `present` is `self._grid.get((x, y))`
(`None` when absent); `None == v` is `False`. -/
def pyEqOpt : Option Cell → Cell → Bool
  | none, _ => false
  | some c, w => pyEq c w

/-- Python `isinstance(present, str)` on `self._grid.get(...)`. -/
def isLetterOpt : Option Cell → Bool
  | some (.letter _) => true
  | _ => false

/-- The grid `self._grid`: a Python dict `(x, y) → cell` as an
insertion-ordered association list with unique keys. -/
abbrev GridMap := List ((Int × Int) × Cell)

/-- `self._grid.get(p)`. -/
def dget (g : GridMap) (p : Int × Int) : Option Cell :=
  match g with
  | [] => none
  | (q, w) :: rest => if q = p then some w else dget rest p

/-- `self._grid[p] = v` (dict item assignment: replaces the value of an
existing key in place, otherwise appends the new key). -/
def dset (g : GridMap) (p : Int × Int) (v : Cell) : GridMap :=
  match g with
  | [] => [(p, v)]
  | (q, w) :: rest => if q = p then (p, v) :: rest else (q, w) :: dset rest p v

theorem dget_dset_self (g : GridMap) (p : Int × Int) (v : Cell) :
    dget (dset g p v) p = some v := by
  induction g with
  | nil => simp [dget, dset]
  | cons qc rest ih =>
    by_cases h : qc.1 = p <;> simp [dget, dset, h, ih]

theorem dget_dset_ne (g : GridMap) (p q : Int × Int) (v : Cell) (h : q ≠ p) :
    dget (dset g q v) p = dget g p := by
  induction g with
  | nil => simp [dget, dset, h]
  | cons qc rest ih =>
    by_cases h1 : qc.1 = q
    · simp only [dset, h1, if_true]
      rw [dget, dget, if_neg h, if_neg (h1 ▸ h)]
    · simp only [dset, h1, if_false]
      by_cases h2 : qc.1 = p <;> simp [dget, h2, ih]

theorem dget_some_mem (g : GridMap) (p : Int × Int) (v : Cell)
    (h : dget g p = some v) : (p, v) ∈ g := by
  induction g with
  | nil => simp [dget] at h
  | cons qc rest ih =>
    by_cases h1 : qc.1 = p
    · rw [dget, if_pos h1] at h
      obtain ⟨q, c⟩ := qc
      obtain rfl := h1
      obtain rfl : c = v := by exact Option.some_injective _ h
      exact List.mem_cons_self _ _
    · rw [dget, if_neg h1] at h
      exact List.mem_cons_of_mem _ (ih h)

/-- The eight rule symbols a `DirectionSampler` may return. -/
def validRules : List String := ["lr", "rl", "tb", "bt", "dbr", "dbl", "dtr", "dtl"]

/-- The rules actually walked by `_rulerange` (outputs of `_find_rule`). -/
def canonRules : List String := ["lr", "tb", "dbr", "dbl", "dtr", "dtl"]

/-- The four axis (non-diagonal) rules, the only ones `_adjacent_fields`
implements. -/
def axisRules : List String := ["lr", "rl", "tb", "bt"]

/-- One step of the coordinate generator `_rulerange` (the body of its
`while` loop after the `yield`); `error` is the final
`raise NotImplementedError(rulename)` branch. -/
def rulerange_step (rule : String) (x y : Int) : Except String (Int × Int) :=
  if rule = "lr" then .ok (x + 1, y)
  else if rule = "tb" then .ok (x, y + 1)
  else if rule = "dbr" then .ok (x + 1, y + 1)
  else if rule = "dbl" then .ok (x - 1, y + 1)
  else if rule = "dtr" then .ok (x + 1, y - 1)
  else if rule = "dtl" then .ok (x - 1, y - 1)
  else .error rule

/-- `_adjacent_fields`: the two orthogonal neighbours inspected by the
crossword adjacency check; raises `NotImplementedError` for any rule
outside the four axis rules (in particular for all diagonal rules). -/
def adjacent_fields (x y : Int) (rule : String) : Except String (List (Int × Int)) :=
  if rule = "tb" ∨ rule = "bt" then .ok [(x - 1, y), (x + 1, y)]
  else if rule = "lr" ∨ rule = "rl" then .ok [(x, y - 1), (x, y + 1)]
  else .error rule

/-- The module-level `DIRECTIONS` dict used by `search` (note that its
deltas differ from `_rulerange`: e.g. here `tb` is `(x, y - 1)`).
`none` models a `KeyError` on an unknown rule. -/
def DIRECTIONS_step (rule : String) (x y : Int) : Option (Int × Int) :=
  if rule = "lr" then some (x + 1, y)
  else if rule = "rl" then some (x - 1, y)
  else if rule = "tb" then some (x, y - 1)
  else if rule = "bt" then some (x, y + 1)
  else if rule = "dbr" then some (x + 1, y - 1)
  else if rule = "dbl" then some (x - 1, y - 1)
  else if rule = "dtr" then some (x + 1, y + 1)
  else if rule = "dtl" then some (x - 1, y + 1)
  else none

/-- `DIRECTIONS.keys()` in dict insertion order. -/
def DIRECTIONS_keys : List String := ["lr", "rl", "tb", "bt", "dbr", "dbl", "dtr", "dtl"]

/-- The rule → human label dict built inside `_find_rule` for the arrow
marker's stored direction; `none` models its `KeyError`. -/
def dirLabel (rule : String) : Option String :=
  if rule = "lr" then some "right"
  else if rule = "rl" then some "left"
  else if rule = "tb" then some "down"
  else if rule = "bt" then some "up"
  else if rule = "dbr" then some "down-right"
  else if rule = "dbl" then some "down-left"
  else if rule = "dtr" then some "up-right"
  else if rule = "dtl" then some "up-left"
  else none

/-- The tuple `(word, rule, req_width, req_height)` returned by
`_find_rule`. -/
structure FindRuleOut where
  word : List Cell
  rule : String
  req_width : Int
  req_height : Int
  deriving DecidableEq, Repr

/-- The tail of `_find_rule` from the `req_width`/`req_height` computation
onwards, including the `rl`/`bt` canonicalization (reverse the sequence,
rewrite the rule); the first `error` is its `raise NotImplementedError`. -/
def find_rule_core (rule : String) (w : List Cell) : Except String FindRuleOut :=
  if rule = "lr" ∨ rule = "rl" then
    if rule = "rl" then .ok ⟨w.reverse, "lr", (w.length : Int), 1⟩
    else .ok ⟨w, rule, (w.length : Int), 1⟩
  else if rule = "tb" ∨ rule = "bt" then
    if rule = "bt" then .ok ⟨w.reverse, "tb", 1, (w.length : Int)⟩
    else .ok ⟨w, rule, 1, (w.length : Int)⟩
  else if rule = "dbr" ∨ rule = "dtl" ∨ rule = "dtr" ∨ rule = "dbl" then
    .ok ⟨w, rule, (w.length : Int), (w.length : Int)⟩
  else .error rule

/-- `_find_rule(word, crossword_marker)` with the sampled rule injected as
an argument (the source draws it from `self._placement.event()`).  With a
marker the word is wrapped as `[ArrowMarker] + word + [VoidPlaceholder]`
before the bounding-box/canonicalization logic. -/
def find_rule (rule : String) (word : List Char) (marker : Option Char) :
    Except String FindRuleOut :=
  let cells : List Cell := word.map Cell.letter
  match marker with
  | some m =>
    match dirLabel rule with
    | none => .error rule
    | some d => find_rule_core rule (Cell.arrow m d :: cells ++ [Cell.voidMark])
  | none => find_rule_core rule cells

/-- Result of one pass of the validation loop of `_attempt_place`
(lines walking `zip(word, self._rulerange(...))`): `reject` is a
`return False`, `err` a raised `NotImplementedError`, `accept` carries the
final `contiguous_letters` counter. -/
inductive VRes where
  | reject
  | err (msg : String)
  | accept (contig : Nat)
  deriving DecidableEq, Repr

/-- Whether every inspected neighbour passes the crossword adjacency
check: forbidden content is anything non-`None` that is not a
`VoidPlaceholder`. -/
def okAdjacent (g : GridMap) (adjs : List (Int × Int)) : Bool :=
  adjs.all fun q =>
    match dget g q with
    | none => true
    | some .voidMark => true
    | some _ => false

/-- Outcome of the per-cell adjacency block of `_attempt_place`. -/
inductive Gate where
  | pass
  | reject
  | err (msg : String)
  deriving DecidableEq, Repr

/-- The `if (present is None) and (crossword_marker is not None)` block of
`_attempt_place`: inspect `_adjacent_fields` (which raises on diagonal
rules) and reject when a neighbour holds non-void content. -/
def adjacencyGate (g : GridMap) (marker : Option Char) (rule : String)
    (present : Option Cell) (x y : Int) : Gate :=
  if present.isNone && marker.isSome then
    match adjacent_fields x y rule with
    | .error e => .err e
    | .ok adjs => if okAdjacent g adjs then .pass else .reject
  else .pass

/-- The validation loop of `_attempt_place`: walk the cells of `word` in
lock-step with `_rulerange(src_x, src_y, rule)`.  The generator yields the
current coordinate before stepping, so for an `n`-cell word only `n - 1`
steps execute (hence no step after the last cell). -/
def validate (g : GridMap) (marker : Option Char) (rule : String) :
    List Cell → Int → Int → Nat → VRes
  | [], _, _, contig => .accept contig
  | wc :: rest, x, y, contig =>
    let present := dget g (x, y)
    let contig' := if pyEqOpt present wc && isLetterOpt present then contig + 1 else contig
    if present.isSome && !(pyEqOpt present wc) then .reject
    else
      match adjacencyGate g marker rule present x y with
      | .err e => .err e
      | .reject => .reject
      | .pass =>
        match rest with
        | [] => .accept contig'
        | _ :: _ =>
          match rulerange_step rule x y with
          | .error e => .err e
          | .ok (x', y') => validate g marker rule rest x' y' contig'

/-- The commit loop of `_attempt_place` (`self._grid[(x, y)] = want_place`
over the same zipped walk).  A step failure (unreachable for the canonical
rules) would raise after a partial commit, so the partially written grid is
returned alongside the raised rule name. -/
def commitWrites (rule : String) : List Cell → Int → Int → GridMap →
    GridMap × Option String
  | [], _, _, g => (g, none)
  | [wc], x, y, g => (dset g (x, y) wc, none)
  | wc :: wc' :: rest, x, y, g =>
    let g1 := dset g (x, y) wc
    match rulerange_step rule x y with
    | .error e => (g1, some e)
    | .ok (x', y') => commitWrites rule (wc' :: rest) x' y' g1

/-- Outcome of `_attempt_place`: `return False`, `return True` (with the
updated grid and the canonical rule recorded in `self._rules`), or a raised
exception (with the grid contents at raise time). -/
inductive AttemptOutcome where
  | retFalse
  | retTrue (g : GridMap) (usedRule : String)
  | raised (msg : String) (g : GridMap)
  deriving DecidableEq, Repr

def AttemptOutcome.isRaised : AttemptOutcome → Bool
  | .raised _ _ => true
  | _ => false

/-- The `src_x`/`src_y` adjustment of `_attempt_place`: for the
diagonal-left rules the sampled x is offset by `len(word) - 1`, for the
upward rules the sampled y is. -/
def srcOffset (fr : FindRuleOut) (sx sy : Int) : Int × Int :=
  (if fr.rule = "dtl" ∨ fr.rule = "dbl" then sx + ((fr.word.length : Int) - 1) else sx,
   if fr.rule = "dtr" ∨ fr.rule = "dtl" then sy + ((fr.word.length : Int) - 1) else sy)

/-- The per-step coordinate delta of each canonical `_rulerange` rule
(used only to state trajectory lemmas). -/
def stepDelta (rule : String) : Int × Int :=
  if rule = "lr" then (1, 0)
  else if rule = "tb" then (0, 1)
  else if rule = "dbr" then (1, 1)
  else if rule = "dbl" then (-1, 1)
  else if rule = "dtr" then (1, -1)
  else if rule = "dtl" then (-1, -1)
  else (0, 0)

/-- `_attempt_place(word, must_be_contiguous, crossword_marker)` with the
sampled rule and the two `random.randint(0, max_*)` draws injected as
`rule`, `sx`, `sy`. -/
def attempt_place (g : GridMap) (width height : Int) (word : List Char)
    (rule : String) (sx sy : Int) (must_be_contiguous : Bool)
    (marker : Option Char) : AttemptOutcome :=
  match find_rule rule word marker with
  | .error e => .raised e g
  | .ok fr =>
    let max_x := width - fr.req_width
    let max_y := height - fr.req_height
    if max_x < 0 ∨ max_y < 0 then .retFalse
    else
      let src := srcOffset fr sx sy
      match validate g marker fr.rule fr.word src.1 src.2 0 with
      | .err e => .raised e g
      | .reject => .retFalse
      | .accept contig =>
        if must_be_contiguous && contig == 0 then .retFalse
        else
          match commitWrites fr.rule fr.word src.1 src.2 g with
          | (g', some e) => .raised e g'
          | (g', none) => .retTrue g' fr.rule

/-- `is_substring(word)`: Python `word in placed` (substring test) over the
accepted word list. -/
def pyInStr (w : List Char) : List Char → Bool
  | [] => w.isEmpty
  | c :: rest => w.isPrefixOf (c :: rest) || pyInStr w rest

def is_substring (words : List (List Char)) (word : List Char) : Bool :=
  words.any fun placed => pyInStr word placed

/-- `search(part, x, y, rule)`.  The source returns `True` as soon as
`part` has no remainder (before reading the grid), else moves one
`DIRECTIONS` step and compares `part[0]` at the *new* position; falling off
the end returns Python `None`, which every caller truth-tests, modelled as
`some false`.  `none` models the `IndexError` of `part[0]` on an empty
`part` (reachable only from `is_coocurence` on a one-letter word) and the
`KeyError` of `DIRECTIONS[rule]`. -/
def search (g : GridMap) : List Char → Int → Int → String → Option Bool
  | [], _, _, _ => none
  | [_], _, _, _ => some true
  | letter :: next :: rest, x, y, rule =>
    match DIRECTIONS_step rule x y with
    | none => none
    | some (x', y') =>
      if pyEqOpt (dget g (x', y')) (Cell.letter letter) then
        search g (next :: rest) x' y' rule
      else some false

/-- The inner `for rule in DIRECTIONS.keys()` loop of `is_coocurence`:
count the rules under which `search` succeeds from `(x, y)`; a raised
exception propagates (`none`). -/
def countRules (g : GridMap) (part : List Char) (x y : Int) :
    List String → Option Nat
  | [] => some 0
  | r :: rs =>
    match search g part x y r with
    | none => none
    | some b =>
      match countRules g part x y rs with
      | none => none
      | some n => some ((if b then 1 else 0) + n)

/-- The outer loop of `is_coocurence` over the grid positions holding the
word's first letter. -/
def countOcc (g : GridMap) (part : List Char) : List (Int × Int) → Option Nat
  | [] => some 0
  | p :: ps =>
    match countRules g part p.1 p.2 DIRECTIONS_keys with
    | none => none
    | some c =>
      match countOcc g part ps with
      | none => none
      | some rest => some (c + rest)

/-- `self._letters_idx[c]`: the property builds a dict keyed by the
grid's *values* (`if letter not in _` hashes each stored value).
`VoidPlaceholder` defines `__eq__` without `__hash__`, so its instances
are unhashable and the construction raises `TypeError` as soon as the
grid holds a void marker — modelled as `none`.  Otherwise the positions
stored under a character key are exactly those whose value equals it, in
dict insertion order (letters group by equality; `ArrowMarker`s hash by
identity and never equal a character). -/
def letters_idx (g : GridMap) (c : Char) : Option (List (Int × Int)) :=
  if g.any fun pc => decide (pc.2 = Cell.voidMark) then none
  else some (g.filterMap fun pc => if pc.2 = Cell.letter c then some pc.1 else none)

/-- `is_coocurence(word)`: `none` models the `TypeError` raised while
building `_letters_idx` over a grid containing a `VoidPlaceholder`, the
`KeyError` of `self._letters_idx[word[0]]` when no grid cell holds the
first letter, the `IndexError` of `word[0]` on an empty word, and any
exception escaping `search`. -/
def is_coocurence (g : GridMap) (word : List Char) : Option Bool :=
  match word with
  | [] => none
  | a :: rest =>
    match letters_idx g a with
    | none => none
    | some posl =>
      if posl.isEmpty then none
      else
        match countOcc g rest posl with
        | none => none
        | some count => some (decide (count > 1))

/-- The coordinates visited by `fill`, `for y in range(h): for x in
range(w)` — row-major order. -/
def rowMajor (w h : Nat) : List (Int × Int) :=
  ((List.range h).map fun y =>
    (List.range w).map fun x => (Int.ofNat x, Int.ofNat y)).flatten

/-- The body of `fill`: walk the coordinates, store one character from the
filler source (`filler.get()`, modelled as the stream `f` with a call
counter `k`) into each still-absent cell. -/
def fillGo (f : Nat → Char) : List (Int × Int) → GridMap → Nat → GridMap
  | [], g, _ => g
  | p :: ps, g, k =>
    if dget g p = none then fillGo f ps (dset g p (.letter (f k))) (k + 1)
    else fillGo f ps g k

/-- `fill(filler)` on a `width × height` engine. -/
def fill (g : GridMap) (w h : Nat) (f : Nat → Char) : GridMap :=
  fillGo f (rowMajor w h) g 0

/-- How many still-absent cells precede `p` in the row-major walk: the
index of the filler character that `fill` stores at an absent `p`. -/
def absentBefore (g : GridMap) (L : List (Int × Int)) (p : Int × Int) : Nat :=
  (L.takeWhile fun q => decide (q ≠ p)).countP fun q => (dget g q).isNone

/-- The engine state of a `Suchsel` object.  Python dicts are mutable heap
objects: `self._grid` and `self._grid_previous` are *references*, modelled
as indices into `heap`; `__init__` allocates the single dict the engine
ever creates at index `0`.  `self._grid_previous = self._grid` copies the
reference, not the dict. -/
structure Engine where
  width : Int
  height : Int
  attempts : Nat
  heap : Nat → GridMap
  gridRef : Nat
  prevRef : Option Nat
  words : List (List Char)
  rules : List (String × Nat)

/-- The dict currently referenced by `self._grid`. -/
def Engine.grid (e : Engine) : GridMap := e.heap e.gridRef

/-- Item assignment through the `self._grid` reference: mutates the
referenced heap object in place. -/
def Engine.setGrid (e : Engine) (g : GridMap) : Engine :=
  { e with heap := fun i => if i = e.gridRef then g else e.heap i }

/-- `Suchsel.__init__`. -/
def Engine.init (w h : Int) (attempts : Nat) : Engine :=
  { width := w, height := h, attempts := attempts, heap := fun _ => [],
    gridRef := 0, prevRef := none, words := [], rules := [] }

/-- `self._rules` bookkeeping on a successful commit. -/
def rulesInc (rs : List (String × Nat)) (r : String) : List (String × Nat) :=
  match rs with
  | [] => [(r, 1)]
  | (q, n) :: rest => if q = r then (q, n + 1) :: rest else (q, n) :: rulesInc rest r

/-- Result of an engine method: a returned boolean or a propagated
exception, each with the post-call engine state. -/
inductive PlaceRes where
  | ret (b : Bool) (e : Engine)
  | exc (msg : String) (e : Engine)

def PlaceRes.isExc : PlaceRes → Bool
  | .ret _ _ => false
  | .exc _ _ => true

def PlaceRes.placedOk : PlaceRes → Bool
  | .ret b _ => b
  | .exc _ _ => false

def PlaceRes.engine : PlaceRes → Engine
  | .ret _ e => e
  | .exc _ e => e

/-- `self._attempt_place(...)` as a method: reads the dict through
`self._grid`, writes the committed cells back through it, and updates
`self._rules` on success. -/
def Engine.attempt (e : Engine) (word : List Char) (mc : Bool)
    (marker : Option Char) (d : String × Int × Int) : PlaceRes :=
  match attempt_place e.grid e.width e.height word d.1 d.2.1 d.2.2 mc marker with
  | .retFalse => .ret false e
  | .retTrue g r => .ret true { e.setGrid g with rules := rulesInc e.rules r }
  | .raised m g => .exc m (e.setGrid g)

/-- One `for i in range(n): if self._attempt_place(...): return True` retry
loop; `k` indexes the stream of random draws. -/
def tryLoop (word : List Char) (mc : Bool) (marker : Option Char)
    (draws : Nat → String × Int × Int) : Engine → Nat → Nat → PlaceRes
  | e, _, 0 => .ret false e
  | e, k, n + 1 =>
    match e.attempt word mc marker (draws k) with
    | .ret true e' => .ret true e'
    | .exc m e' => .exc m e'
    | .ret false e' => tryLoop word mc marker draws e' (k + 1) n

/-- `Suchsel._place(word, contiguous)`: first the contiguous-only retry
loop (when requested and the grid is non-empty), then the unconstrained
retry loop. -/
def Engine.place_impl (e : Engine) (word : List Char) (contiguous : Bool)
    (draws : Nat → String × Int × Int) : PlaceRes :=
  if contiguous && e.grid.length > 0 then
    match tryLoop word true none draws e 0 e.attempts with
    | .ret true e' => .ret true e'
    | .exc m e' => .exc m e'
    | .ret false e' => tryLoop word false none draws e' e.attempts e'.attempts
  else tryLoop word false none draws e 0 e.attempts

/-- `Suchsel.place(word, contiguous)`.  Note the snapshot
`self._grid_previous = self._grid` stores a *reference* to the same dict
that `_attempt_place` then mutates in place, and the rollback
`self._grid = self._grid_previous` restores that reference. -/
def Engine.place (e : Engine) (word : List Char) (contiguous : Bool)
    (draws : Nat → String × Int × Int) : PlaceRes :=
  let e1 := { e with prevRef := some e.gridRef }
  if is_substring e1.words word then .ret false e1
  else
    match e1.place_impl word contiguous draws with
    | .exc m e' => .exc m e'
    | .ret false e' => .ret false e'
    | .ret true e' =>
      match is_coocurence e'.grid word with
      | none => .exc "coocurence-lookup" e'
      | some true => .ret false { e' with gridRef := e'.prevRef.getD e'.gridRef }
      | some false => .ret true { e' with words := e'.words ++ [word] }

/-- `Suchsel.place_crossword(word, crossword_marker)`: the contiguity
requirement is fixed at entry from grid non-emptiness, and the marker is
passed to every attempt. -/
def Engine.place_crossword (e : Engine) (word : List Char) (marker : Char)
    (draws : Nat → String × Int × Int) : PlaceRes :=
  let contiguous := e.grid.length > 0
  tryLoop word contiguous (some marker) draws e 0 e.attempts

/-! ## Basic facts about `search` -/

theorem search_single (g : GridMap) (c : Char) (x y : Int) (rule : String) :
    search g [c] x y rule = some true := rfl

/-- Claim C10: the directional co-occurrence search never verifies a
word's final character: a one-character part succeeds at every coordinate
and rule without consulting the grid, and for longer parts the result is
unchanged when the final character is replaced. -/
theorem C10_search_skips_final_char (g : GridMap) :
    (∀ (c : Char) (x y : Int) (rule : String), search g [c] x y rule = some true) ∧
    (∀ (part : List Char) (c c' : Char) (x y : Int) (rule : String),
      search g (part ++ [c]) x y rule = search g (part ++ [c']) x y rule) := by
  constructor
  · intro c x y rule
    rfl
  · intro part c c'
    induction part with
    | nil => intro x y rule; rfl
    | cons a rest ih =>
      intro x y rule
      cases rest with
      | nil =>
        show search g [a, c] x y rule = search g [a, c'] x y rule
        rw [search, search]
        cases DIRECTIONS_step rule x y with
        | none => rfl
        | some p =>
          by_cases h : pyEqOpt (dget g (p.1, p.2)) (Cell.letter a) = true <;>
            simp [h, search_single]
      | cons r rs =>
        show search g (a :: r :: (rs ++ [c])) x y rule =
          search g (a :: r :: (rs ++ [c'])) x y rule
        rw [search, search]
        cases DIRECTIONS_step rule x y with
        | none => rfl
        | some p =>
          by_cases h : pyEqOpt (dget g (p.1, p.2)) (Cell.letter a) = true
          · simp only [h, if_true]
            exact ih p.1 p.2 rule
          · simp [h]

/-! ## Claims about rejection, guards and rollback -/

/-- Claim C6: a single placement attempt is all-or-nothing: a rejected
attempt returns `False` with the engine (grid included) unchanged, and
re-running the identical fit-check on the identical state yields the
identical outcome. -/
theorem C6_attempt_reject_no_mutation (e : Engine) (word : List Char) (mc : Bool)
    (marker : Option Char) (d : String × Int × Int) (e' : Engine)
    (h : Engine.attempt e word mc marker d = .ret false e') :
    e' = e ∧ Engine.attempt e' word mc marker d = .ret false e' := by
  unfold Engine.attempt at h
  cases hm : attempt_place e.grid e.width e.height word d.1 d.2.1 d.2.2 mc marker with
  | retFalse =>
    rw [hm] at h
    have he : e' = e := by cases h; rfl
    subst he
    refine ⟨rfl, ?_⟩
    unfold Engine.attempt
    rw [hm]
  | retTrue g r =>
    rw [hm] at h
    cases h
  | raised m g =>
    rw [hm] at h
    cases h

/-- Witness for C6 at a concrete input: a 1×1 grid rejects "AB" under rule
`lr` (does not fit), without mutation and idempotently. -/
theorem C6_attempt_reject_no_mutation_witness :
    Engine.init 1 1 1 = Engine.init 1 1 1 ∧
    Engine.attempt (Engine.init 1 1 1) ['A', 'B'] false none ("lr", 0, 0) =
      .ret false (Engine.init 1 1 1) :=
  C6_attempt_reject_no_mutation (Engine.init 1 1 1) ['A', 'B'] false none
    ("lr", 0, 0) (Engine.init 1 1 1) rfl

/-- Claim C8: a word that is a substring of an accepted word is rejected
before any geometric attempt: `place` returns `False`, the grid and the
word list are unchanged, and the result does not depend on the random
draw stream. -/
theorem C8_substring_guard (e : Engine) (word : List Char) (c : Bool)
    (draws draws' : Nat → String × Int × Int)
    (h : is_substring e.words word = true) :
    Engine.place e word c draws = .ret false { e with prevRef := some e.gridRef } ∧
    ({ e with prevRef := some e.gridRef } : Engine).grid = e.grid ∧
    ({ e with prevRef := some e.gridRef } : Engine).words = e.words ∧
    Engine.place e word c draws = Engine.place e word c draws' := by
  have h1 : ∀ ds : Nat → String × Int × Int,
      Engine.place e word c ds = .ret false { e with prevRef := some e.gridRef } := by
    intro ds
    unfold Engine.place
    simp only [h, if_true]
  exact ⟨h1 draws, rfl, rfl, (h1 draws).trans (h1 draws').symm⟩

/-- Witness for C8: with "CAT" accepted, placing "CA" is rejected with no
grid mutation. -/
theorem C8_substring_guard_witness :
    Engine.place { Engine.init 5 5 3 with words := [['C', 'A', 'T']] }
        ['C', 'A'] false (fun _ => ("lr", 0, 0)) =
      .ret false { { Engine.init 5 5 3 with words := [['C', 'A', 'T']] } with
        prevRef :=
          some ({ Engine.init 5 5 3 with words := [['C', 'A', 'T']] }).gridRef } ∧
    ({ { Engine.init 5 5 3 with words := [['C', 'A', 'T']] } with
        prevRef :=
          some ({ Engine.init 5 5 3 with words := [['C', 'A', 'T']] }).gridRef } :
        Engine).grid =
      ({ Engine.init 5 5 3 with words := [['C', 'A', 'T']] } : Engine).grid ∧
    ({ { Engine.init 5 5 3 with words := [['C', 'A', 'T']] } with
        prevRef :=
          some ({ Engine.init 5 5 3 with words := [['C', 'A', 'T']] }).gridRef } :
        Engine).words =
      ({ Engine.init 5 5 3 with words := [['C', 'A', 'T']] } : Engine).words ∧
    Engine.place { Engine.init 5 5 3 with words := [['C', 'A', 'T']] }
        ['C', 'A'] false (fun _ => ("lr", 0, 0)) =
      Engine.place { Engine.init 5 5 3 with words := [['C', 'A', 'T']] }
        ['C', 'A'] false (fun _ => ("rl", 1, 1)) :=
  C8_substring_guard { Engine.init 5 5 3 with words := [['C', 'A', 'T']] }
    ['C', 'A'] false (fun _ => ("lr", 0, 0)) (fun _ => ("rl", 1, 1)) (by decide)

/-- Claim C1 concerns the rollback after the co-occurrence guard.  In the
source the snapshot `self._grid_previous = self._grid` stores a reference
to the very dict that the commit then mutates in place, so the rollback
`self._grid = self._grid_previous` cannot restore the pre-attempt cells.
At a concrete input (empty 2×1 grid, word "AB", draw `(lr, 0, 0)`; every
two-letter word trips the co-occurrence guard): `place` returns `False`
and does not append the word, but the grid still holds the committed
letters instead of being restored to its pre-attempt (empty) state. -/
theorem C1_rollback_is_noop :
    (Engine.place (Engine.init 2 1 1) ['A', 'B'] false
      (fun _ => ("lr", 0, 0))).isExc = false ∧
    (Engine.place (Engine.init 2 1 1) ['A', 'B'] false
      (fun _ => ("lr", 0, 0))).placedOk = false ∧
    (Engine.place (Engine.init 2 1 1) ['A', 'B'] false
      (fun _ => ("lr", 0, 0))).engine.words = [] ∧
    (Engine.place (Engine.init 2 1 1) ['A', 'B'] false
      (fun _ => ("lr", 0, 0))).engine.grid =
      [((0, 0), Cell.letter 'A'), ((1, 0), Cell.letter 'B')] ∧
    (Engine.init 2 1 1).grid = [] := by
  refine ⟨rfl, rfl, rfl, by decide, rfl⟩

/-- Counterexample to claim C2: `"dbr"` is one of the eight rule symbols a
`DirectionSampler` may return, yet a crossword attempt under it raises
`NotImplementedError` (from `_adjacent_fields`) instead of reporting a
boolean outcome. -/
theorem C2_diagonal_crossword_raises :
    (Engine.place_crossword (Engine.init 10 10 1) ['A', 'B'] '1'
      (fun _ => ("dbr", 0, 0))).isExc = true := by decide

/-- Counterexample to claim C5: in an empty 6×6 grid, the crossword
placement of "OCEAN" (wrapped to 7 cells) under rule "tb" never writes
anything — it fails the bounding-box check, so the claimed arrow/letters/
void cells are never written. -/
theorem C5_counterexample_6x6_never_writes :
    Engine.place_crossword (Engine.init 6 6 3) ['O', 'C', 'E', 'A', 'N'] '1'
      (fun _ => ("tb", 0, 0)) = .ret false (Engine.init 6 6 3) := by
  rfl

/-! ## Rule canonicalization -/

theorem find_rule_rl_reverse (word : List Char) :
    find_rule "rl" word none = find_rule "lr" word.reverse none := by
  simp [find_rule, find_rule_core, List.map_reverse]

theorem find_rule_bt_reverse (word : List Char) :
    find_rule "bt" word none = find_rule "tb" word.reverse none := by
  simp [find_rule, find_rule_core, List.map_reverse]

/-- `_find_rule` only ever outputs one of the six canonical walking rules
(`rl` and `bt` are rewritten). -/
theorem find_rule_canon (rule : String) (word : List Char) (marker : Option Char)
    (fr : FindRuleOut) (hr : rule ∈ validRules)
    (hfr : find_rule rule word marker = .ok fr) : fr.rule ∈ canonRules := by
  simp only [validRules, List.mem_cons, List.not_mem_nil, or_false] at hr
  rcases hr with rfl | rfl | rfl | rfl | rfl | rfl | rfl | rfl <;>
    cases marker <;>
      simp [find_rule, dirLabel, find_rule_core] at hfr <;>
        simp [← hfr, canonRules]

/-- Claim C7: reverse-direction rules are canonicalized before placement:
an attempt with rule `rl` (resp. `bt`) behaves identically to an attempt
with the reversed word and rule `lr` (resp. `tb`) at the same sampled
origin, and every `_find_rule` output rule is canonical. -/
theorem C7_reverse_canonicalization (g : GridMap) (width height : Int)
    (word : List Char) (sx sy : Int) (mc : Bool) :
    attempt_place g width height word "rl" sx sy mc none =
      attempt_place g width height word.reverse "lr" sx sy mc none ∧
    attempt_place g width height word "bt" sx sy mc none =
      attempt_place g width height word.reverse "tb" sx sy mc none ∧
    (∀ (rule : String) (word' : List Char) (marker : Option Char) (fr : FindRuleOut),
      rule ∈ validRules → find_rule rule word' marker = .ok fr →
      fr.rule ∈ canonRules) := by
  refine ⟨?_, ?_, fun rule word' marker fr hr hfr =>
    find_rule_canon rule word' marker fr hr hfr⟩
  · unfold attempt_place
    rw [find_rule_rl_reverse]
  · unfold attempt_place
    rw [find_rule_bt_reverse]

/-- Witness for C7 at the spec's concrete input: "CAT" under `rl` equals
"TAC" under `lr` on an empty 5×1 grid at sampled origin (1, 0). -/
theorem C7_reverse_canonicalization_witness :
    attempt_place [] 5 1 ['C', 'A', 'T'] "rl" 1 0 false none =
      attempt_place [] 5 1 (['C', 'A', 'T'].reverse) "lr" 1 0 false none ∧
    (⟨[Cell.letter 'T', Cell.letter 'A', Cell.letter 'C'], "lr", 3, 1⟩ :
      FindRuleOut).rule ∈ canonRules :=
  ⟨(C7_reverse_canonicalization [] 5 1 ['C', 'A', 'T'] 1 0 false).1,
   (C7_reverse_canonicalization [] 5 1 ['C', 'A', 'T'] 1 0 false).2.2 "rl"
     ['C', 'A', 'T'] none
     ⟨[Cell.letter 'T', Cell.letter 'A', Cell.letter 'C'], "lr", 3, 1⟩
     (by decide) rfl⟩

/-- Claim C5, amended: a crossword placement wraps the word as
`[ArrowMarker] + word + [VoidMarker]` (length + 2); because "OCEAN" wraps
to 7 cells, in an empty 6×6 grid every attempt under rule `tb` fails the
bounding-box check and writes nothing, while in a 6×7 grid it writes the
arrow marker at the origin, the five letters below it, and the void marker
one cell further below. -/
theorem C5_crossword_wrap_and_bounds :
    (∀ (rule : String) (word : List Char) (m : Char) (fr : FindRuleOut),
      rule ∈ validRules → find_rule rule word (some m) = .ok fr →
      fr.word.length = word.length + 2) ∧
    (∀ (sx sy : Int) (mc : Bool),
      attempt_place [] 6 6 ['O', 'C', 'E', 'A', 'N'] "tb" sx sy mc (some '1') =
        .retFalse) ∧
    (attempt_place [] 6 7 ['O', 'C', 'E', 'A', 'N'] "tb" 0 0 false (some '1') =
      .retTrue [((0, 0), Cell.arrow '1' "down"), ((0, 1), Cell.letter 'O'),
        ((0, 2), Cell.letter 'C'), ((0, 3), Cell.letter 'E'),
        ((0, 4), Cell.letter 'A'), ((0, 5), Cell.letter 'N'),
        ((0, 6), Cell.voidMark)] "tb") := by
  refine ⟨?_, ?_, by decide⟩
  · intro rule word m fr hr hfr
    simp only [validRules, List.mem_cons, List.not_mem_nil, or_false] at hr
    rcases hr with rfl | rfl | rfl | rfl | rfl | rfl | rfl | rfl <;>
      simp [find_rule, dirLabel, find_rule_core] at hfr <;>
        simp [← hfr]
  · intro sx sy mc
    rfl

/-- Witness for C5's amended claim: the wrap adds two cells for "OCEAN"
under `tb`, and the 6×6 bounding-box failure at the concrete origin. -/
theorem C5_crossword_wrap_and_bounds_witness :
    (⟨Cell.arrow '1' "down" ::
        (['O', 'C', 'E', 'A', 'N'].map Cell.letter) ++ [Cell.voidMark], "tb", 1, 7⟩ :
      FindRuleOut).word.length = ['O', 'C', 'E', 'A', 'N'].length + 2 ∧
    attempt_place [] 6 6 ['O', 'C', 'E', 'A', 'N'] "tb" 0 0 false (some '1') =
      .retFalse :=
  ⟨C5_crossword_wrap_and_bounds.1 "tb" ['O', 'C', 'E', 'A', 'N'] '1' _
     (by decide) rfl,
   C5_crossword_wrap_and_bounds.2.1 0 0 false⟩

/-! ## Exception-freedom of axis-rule attempts -/

theorem rulerange_step_canon (rule : String) (hr : rule ∈ canonRules)
    (x y : Int) : ∃ q, rulerange_step rule x y = .ok q := by
  simp only [canonRules, List.mem_cons, List.not_mem_nil, or_false] at hr
  rcases hr with rfl | rfl | rfl | rfl | rfl | rfl <;> exact ⟨_, rfl⟩

theorem adjacent_fields_lr (x y : Int) :
    adjacent_fields x y "lr" = .ok [(x, y - 1), (x, y + 1)] := by
  simp [adjacent_fields]

theorem adjacent_fields_tb (x y : Int) :
    adjacent_fields x y "tb" = .ok [(x - 1, y), (x + 1, y)] := by
  simp [adjacent_fields]

theorem adjacencyGate_ne_err (g : GridMap) (marker : Option Char)
    (rule : String) (present : Option Cell) (x y : Int)
    (hadj : marker = none ∨ rule = "lr" ∨ rule = "tb") (e : String) :
    adjacencyGate g marker rule present x y ≠ .err e := by
  unfold adjacencyGate
  rcases hadj with rfl | rfl | rfl
  · simp
  · split
    · simp only [adjacent_fields_lr]
      split <;> simp
    · simp
  · split
    · simp only [adjacent_fields_tb]
      split <;> simp
    · simp

theorem validate_ne_err (g : GridMap) (marker : Option Char) (rule : String)
    (hcanon : rule ∈ canonRules) (hadj : marker = none ∨ rule = "lr" ∨ rule = "tb") :
    ∀ (w : List Cell) (x y : Int) (c : Nat) (e : String),
      validate g marker rule w x y c ≠ .err e := by
  intro w
  induction w with
  | nil =>
    intro x y c e
    simp [validate]
  | cons wc rest ih =>
    intro x y c e
    rw [validate.eq_def]
    by_cases hp : ((dget g (x, y)).isSome && !pyEqOpt (dget g (x, y)) wc) = true
    · simp [hp]
    · simp only [hp, if_false, Bool.false_eq_true]
      cases hg : adjacencyGate g marker rule (dget g (x, y)) x y with
      | err e' => exact absurd hg (adjacencyGate_ne_err g marker rule _ x y hadj e')
      | reject => simp [hg]
      | pass =>
        simp only [hg]
        cases rest with
        | nil => simp
        | cons wc' ws =>
          obtain ⟨q, hq⟩ := rulerange_step_canon rule hcanon x y
          simp only [hq]
          exact ih q.1 q.2 _ e

theorem commitWrites_snd_none (rule : String) (hcanon : rule ∈ canonRules) :
    ∀ (w : List Cell) (x y : Int) (g : GridMap),
      (commitWrites rule w x y g).2 = none := by
  intro w
  induction w with
  | nil => intro x y g; rfl
  | cons wc rest ih =>
    intro x y g
    cases rest with
    | nil => rfl
    | cons wc' ws =>
      obtain ⟨q, hq⟩ := rulerange_step_canon rule hcanon x y
      rw [commitWrites.eq_def]
      simp only [hq]
      exact ih q.1 q.2 _

/-- Unfolding of `_attempt_place` past a successful `_find_rule`. -/
theorem attempt_place_eq (g : GridMap) (width height : Int) (word : List Char)
    (rule : String) (sx sy : Int) (mc : Bool) (marker : Option Char)
    (fr : FindRuleOut) (hfr : find_rule rule word marker = .ok fr) :
    attempt_place g width height word rule sx sy mc marker =
      (if width - fr.req_width < 0 ∨ height - fr.req_height < 0 then .retFalse
       else
         match validate g marker fr.rule fr.word (srcOffset fr sx sy).1
             (srcOffset fr sx sy).2 0 with
         | .err e => .raised e g
         | .reject => .retFalse
         | .accept contig =>
           if mc && contig == 0 then .retFalse
           else
             match commitWrites fr.rule fr.word (srcOffset fr sx sy).1
                 (srcOffset fr sx sy).2 g with
             | (g', some e) => .raised e g'
             | (g', none) => .retTrue g' fr.rule) := by
  unfold attempt_place
  rw [hfr]

/-- `_attempt_place` terminates with `return True` or `return False`
(never an exception) whenever the canonicalized rule is walkable and — in
crossword mode — the adjacency check is implemented for it. -/
theorem attempt_place_no_raise_core (g : GridMap) (width height : Int)
    (word : List Char) (rule : String) (sx sy : Int) (mc : Bool)
    (marker : Option Char) (fr : FindRuleOut)
    (hfr : find_rule rule word marker = .ok fr)
    (hcanon : fr.rule ∈ canonRules)
    (hadj : marker = none ∨ fr.rule = "lr" ∨ fr.rule = "tb") :
    (attempt_place g width height word rule sx sy mc marker).isRaised = false := by
  rw [attempt_place_eq g width height word rule sx sy mc marker fr hfr]
  split
  · rfl
  · split
    · next e heq =>
      exact absurd heq (validate_ne_err g marker fr.rule hcanon hadj fr.word _ _ 0 e)
    · rfl
    · next contig heq =>
      split
      · rfl
      · split
        · next g' e heq2 =>
          have hc := commitWrites_snd_none fr.rule hcanon fr.word
            (srcOffset fr sx sy).1 (srcOffset fr sx sy).2 g
          rw [heq2] at hc
          cases hc
        · rfl

theorem find_rule_ok_of_valid (rule : String) (word : List Char)
    (marker : Option Char) (hr : rule ∈ validRules) :
    ∃ fr, find_rule rule word marker = .ok fr ∧ fr.rule ∈ canonRules ∧
      (rule ∈ axisRules → (fr.rule = "lr" ∨ fr.rule = "tb")) := by
  simp only [validRules, List.mem_cons, List.not_mem_nil, or_false] at hr
  rcases hr with rfl | rfl | rfl | rfl | rfl | rfl | rfl | rfl <;> cases marker <;>
    exact ⟨_, rfl, by simp [canonRules],
      by intro hx; first
        | exact Or.inl rfl
        | exact Or.inr rfl
        | simp [axisRules] at hx⟩

theorem Engine_attempt_no_exc (e : Engine) (word : List Char) (mc : Bool)
    (marker : Option Char) (d : String × Int × Int)
    (hr : d.1 ∈ validRules) (hadj : marker = none ∨ d.1 ∈ axisRules) :
    (Engine.attempt e word mc marker d).isExc = false := by
  obtain ⟨fr, hfr, hcanon, haxis⟩ := find_rule_ok_of_valid d.1 word marker hr
  have hadj' : marker = none ∨ fr.rule = "lr" ∨ fr.rule = "tb" := by
    rcases hadj with rfl | hax
    · exact Or.inl rfl
    · exact Or.inr (haxis hax)
  have h := attempt_place_no_raise_core e.grid e.width e.height word d.1 d.2.1
    d.2.2 mc marker fr hfr hcanon hadj'
  unfold Engine.attempt
  cases ha : attempt_place e.grid e.width e.height word d.1 d.2.1 d.2.2 mc marker with
  | retFalse => rfl
  | retTrue g r => rfl
  | raised m g =>
    rw [ha] at h
    cases h

theorem tryLoop_succ (word : List Char) (mc : Bool) (marker : Option Char)
    (draws : Nat → String × Int × Int) (e : Engine) (k n : Nat) :
    tryLoop word mc marker draws e k (n + 1) =
      match e.attempt word mc marker (draws k) with
      | .ret true e' => .ret true e'
      | .exc m e' => .exc m e'
      | .ret false e' => tryLoop word mc marker draws e' (k + 1) n := rfl

theorem tryLoop_no_exc (word : List Char) (mc : Bool) (marker : Option Char)
    (draws : Nat → String × Int × Int)
    (hdr : ∀ i, (draws i).1 ∈ validRules)
    (hadj : marker = none ∨ ∀ i, (draws i).1 ∈ axisRules) :
    ∀ (n k : Nat) (e : Engine), (tryLoop word mc marker draws e k n).isExc = false := by
  intro n
  induction n with
  | zero => intro k e; rfl
  | succ n ih =>
    intro k e
    have h := Engine_attempt_no_exc e word mc marker (draws k) (hdr k)
      (by rcases hadj with rfl | hx; exact Or.inl rfl; exact Or.inr (hx k))
    rw [tryLoop_succ]
    split
    · rfl
    · next m e' heq =>
      rw [heq] at h
      cases h
    · exact ih (k + 1) _

/-- Claim C2, amended: for the four axis rules (`lr`, `rl`, `tb`, `bt`)
every crossword placement attempt either succeeds or reports recoverable
failure as a boolean (adjacency violations included — they just make the
attempt return `False` and the loop retry); but for the four diagonal rule
symbols, which a `DirectionSampler` may equally return, the adjacency
check raises `NotImplementedError`, so an unrecognized rule symbol is not
the only fatal condition. -/
theorem C2_axis_crossword_no_raise (e : Engine) (word : List Char) (m : Char)
    (draws : Nat → String × Int × Int)
    (hdr : ∀ i, (draws i).1 ∈ axisRules) :
    (Engine.place_crossword e word m draws).isExc = false := by
  have hvalid : ∀ i, (draws i).1 ∈ validRules := by
    intro i
    have hi := hdr i
    simp only [axisRules, List.mem_cons, List.not_mem_nil, or_false] at hi
    rcases hi with h | h | h | h <;> rw [h] <;> decide
  unfold Engine.place_crossword
  exact tryLoop_no_exc word _ (some m) draws hvalid (Or.inr hdr) e.attempts 0 e

/-- Witness for C2's amended claim: an axis-rule crossword attempt stream
never raises. -/
theorem C2_axis_crossword_no_raise_witness :
    (Engine.place_crossword (Engine.init 5 5 2) ['A', 'B'] '1'
      (fun _ => ("tb", 0, 0))).isExc = false :=
  C2_axis_crossword_no_raise (Engine.init 5 5 2) ['A', 'B'] '1'
    (fun _ => ("tb", 0, 0))
    (fun _ => by show ("tb", (0 : Int), (0 : Int)).1 ∈ axisRules; decide)

theorem rulestep_eq_delta (rule : String) (hr : rule ∈ canonRules) (x y : Int) :
    rulerange_step rule x y = .ok (x + (stepDelta rule).1, y + (stepDelta rule).2) := by
  simp only [canonRules, List.mem_cons, List.not_mem_nil, or_false] at hr
  rcases hr with rfl | rfl | rfl | rfl | rfl | rfl <;>
    simp [rulerange_step, stepDelta, sub_eq_add_neg]

theorem commitWrites_dget_ne (rule : String) (hr : rule ∈ canonRules) :
    ∀ (w : List Cell) (x y : Int) (g : GridMap) (p : Int × Int),
      dget (commitWrites rule w x y g).1 p ≠ dget g p →
      ∃ i : Nat, i < w.length ∧
        p = (x + i * (stepDelta rule).1, y + i * (stepDelta rule).2) := by
  intro w
  induction w with
  | nil =>
    intro x y g p h
    exact absurd rfl h
  | cons wc rest ih =>
    intro x y g p h
    cases rest with
    | nil =>
      by_cases hp : p = (x, y)
      · exact ⟨0, by simp, by simpa using hp⟩
      · rw [show commitWrites rule [wc] x y g = (dset g (x, y) wc, none) from rfl] at h
        rw [dget_dset_ne g p (x, y) wc (fun hq => hp hq.symm)] at h
        exact absurd rfl h
    | cons wc' ws =>
      by_cases hp : p = (x, y)
      · exact ⟨0, by simp, by simpa using hp⟩
      · rw [commitWrites.eq_def] at h
        simp only [rulestep_eq_delta rule hr] at h
        have h' : dget (commitWrites rule (wc' :: ws) (x + (stepDelta rule).1)
            (y + (stepDelta rule).2) (dset g (x, y) wc)).1 p ≠
            dget (dset g (x, y) wc) p := by
          rw [dget_dset_ne g p (x, y) wc (fun hq => hp hq.symm)]
          exact h
        obtain ⟨i, hi, hpi⟩ := ih (x + (stepDelta rule).1) (y + (stepDelta rule).2)
          (dset g (x, y) wc) p h'
        refine ⟨i + 1, by simpa using Nat.succ_lt_succ hi, ?_⟩
        rw [hpi]
        simp only [Prod.mk.injEq]
        constructor <;> (push_cast; ring)

theorem find_rule_core_spec (rule : String) (w : List Cell) (fr : FindRuleOut)
    (h : find_rule_core rule w = .ok fr) :
    (fr.rule = "lr" ∧ fr.req_width = (fr.word.length : Int) ∧ fr.req_height = 1) ∨
    (fr.rule = "tb" ∧ fr.req_width = 1 ∧ fr.req_height = (fr.word.length : Int)) ∨
    ((fr.rule = "dbr" ∨ fr.rule = "dtl" ∨ fr.rule = "dtr" ∨ fr.rule = "dbl") ∧
      fr.req_width = (fr.word.length : Int) ∧
      fr.req_height = (fr.word.length : Int)) := by
  unfold find_rule_core at h
  split at h
  case isTrue hA =>
    split at h
    case isTrue hrl =>
      cases h
      left
      exact ⟨rfl, by simp, rfl⟩
    case isFalse hrl =>
      cases h
      left
      rcases hA with h1 | h1
      · subst h1
        exact ⟨rfl, rfl, rfl⟩
      · exact absurd h1 hrl
  case isFalse hA =>
    split at h
    case isTrue hB =>
      split at h
      case isTrue hbt =>
        cases h
        right; left
        exact ⟨rfl, rfl, by simp⟩
      case isFalse hbt =>
        cases h
        right; left
        rcases hB with h1 | h1
        · subst h1
          exact ⟨rfl, rfl, rfl⟩
        · exact absurd h1 hbt
    case isFalse hB =>
      split at h
      case isTrue hC =>
        cases h
        right; right
        exact ⟨hC, rfl, rfl⟩
      case isFalse hC =>
        cases h

theorem find_rule_spec (rule : String) (word : List Char) (marker : Option Char)
    (fr : FindRuleOut) (hfr : find_rule rule word marker = .ok fr) :
    (fr.rule = "lr" ∧ fr.req_width = (fr.word.length : Int) ∧ fr.req_height = 1) ∨
    (fr.rule = "tb" ∧ fr.req_width = 1 ∧ fr.req_height = (fr.word.length : Int)) ∨
    ((fr.rule = "dbr" ∨ fr.rule = "dtl" ∨ fr.rule = "dtr" ∨ fr.rule = "dbl") ∧
      fr.req_width = (fr.word.length : Int) ∧
      fr.req_height = (fr.word.length : Int)) := by
  unfold find_rule at hfr
  cases marker with
  | none => exact find_rule_core_spec rule _ fr hfr
  | some m =>
    cases hd : dirLabel rule with
    | none =>
      rw [hd] at hfr
      cases hfr
    | some d =>
      rw [hd] at hfr
      exact find_rule_core_spec rule _ fr hfr

theorem attempt_place_retTrue_elim (g : GridMap) (width height : Int)
    (word : List Char) (rule : String) (sx sy : Int) (mc : Bool)
    (marker : Option Char) (g' : GridMap) (r : String) (fr : FindRuleOut)
    (hfr : find_rule rule word marker = .ok fr)
    (hres : attempt_place g width height word rule sx sy mc marker = .retTrue g' r) :
    commitWrites fr.rule fr.word (srcOffset fr sx sy).1 (srcOffset fr sx sy).2 g =
      (g', none) ∧ r = fr.rule ∧
    ¬(width - fr.req_width < 0 ∨ height - fr.req_height < 0) := by
  rw [attempt_place_eq g width height word rule sx sy mc marker fr hfr] at hres
  split at hres
  · cases hres
  · next hbound =>
    split at hres
    · cases hres
    · cases hres
    · split at hres
      · cases hres
      · split at hres
        · cases hres
        · next g1 heq =>
          cases hres
          exact ⟨heq, rfl, hbound⟩

/-- Claim C4: for every successful commit — under every rule, including
the diagonal-left and upward rules whose sampled origin is offset by
`len - 1` before walking — every cell written into the grid has
`0 ≤ x < width` and `0 ≤ y < height` (the sampled origin being inside the
`randint(0, max_*)` ranges, which the source guarantees); consequently the
bounds invariant on the grid's keys is preserved by every placement. -/
theorem C4_commit_in_bounds (g : GridMap) (width height : Int)
    (word : List Char) (rule : String) (sx sy : Int) (mc : Bool)
    (marker : Option Char) (fr : FindRuleOut) (g' : GridMap) (r : String)
    (hfr : find_rule rule word marker = .ok fr)
    (hsx0 : 0 ≤ sx) (hsx1 : sx ≤ width - fr.req_width)
    (hsy0 : 0 ≤ sy) (hsy1 : sy ≤ height - fr.req_height)
    (hres : attempt_place g width height word rule sx sy mc marker = .retTrue g' r) :
    (∀ p : Int × Int, dget g' p ≠ dget g p →
      0 ≤ p.1 ∧ p.1 < width ∧ 0 ≤ p.2 ∧ p.2 < height) ∧
    ((∀ p : Int × Int, dget g p ≠ none →
        0 ≤ p.1 ∧ p.1 < width ∧ 0 ≤ p.2 ∧ p.2 < height) →
      ∀ p : Int × Int, dget g' p ≠ none →
        0 ≤ p.1 ∧ p.1 < width ∧ 0 ≤ p.2 ∧ p.2 < height) := by
  obtain ⟨hcommit, hrr, hbound⟩ := attempt_place_retTrue_elim g width height word
    rule sx sy mc marker g' r fr hfr hres
  have hmain : ∀ p : Int × Int, dget g' p ≠ dget g p →
      0 ≤ p.1 ∧ p.1 < width ∧ 0 ≤ p.2 ∧ p.2 < height := by
    intro p hne
    have hne' : dget (commitWrites fr.rule fr.word (srcOffset fr sx sy).1
        (srcOffset fr sx sy).2 g).1 p ≠ dget g p := by
      rw [hcommit]
      exact hne
    rcases find_rule_spec rule word marker fr hfr with
      ⟨h1, h2, h3⟩ | ⟨h1, h2, h3⟩ | ⟨h1, h2, h3⟩
    · -- row rule lr
      have hcanon : fr.rule ∈ canonRules := by rw [h1]; decide
      obtain ⟨i, hi, hp⟩ := commitWrites_dget_ne fr.rule hcanon fr.word
        (srcOffset fr sx sy).1 (srcOffset fr sx sy).2 g p hne'
      have hd : stepDelta fr.rule = (1, 0) := by rw [h1]; simp [stepDelta]
      have hX : (srcOffset fr sx sy).1 = sx := by simp [srcOffset, h1]
      have hY : (srcOffset fr sx sy).2 = sy := by simp [srcOffset, h1]
      rw [hd, hX, hY] at hp
      have hi' : (i : Int) < (fr.word.length : Int) := by exact_mod_cast hi
      rw [h2] at hsx1
      rw [h3] at hsy1
      rw [show p.1 = sx + (i : Int) * 1 from by rw [hp],
        show p.2 = sy + (i : Int) * 0 from by rw [hp]]
      refine ⟨by omega, by omega, by omega, by omega⟩
    · -- column rule tb
      have hcanon : fr.rule ∈ canonRules := by rw [h1]; decide
      obtain ⟨i, hi, hp⟩ := commitWrites_dget_ne fr.rule hcanon fr.word
        (srcOffset fr sx sy).1 (srcOffset fr sx sy).2 g p hne'
      have hd : stepDelta fr.rule = (0, 1) := by rw [h1]; simp [stepDelta]
      have hX : (srcOffset fr sx sy).1 = sx := by simp [srcOffset, h1]
      have hY : (srcOffset fr sx sy).2 = sy := by simp [srcOffset, h1]
      rw [hd, hX, hY] at hp
      have hi' : (i : Int) < (fr.word.length : Int) := by exact_mod_cast hi
      rw [h2] at hsx1
      rw [h3] at hsy1
      rw [show p.1 = sx + (i : Int) * 0 from by rw [hp],
        show p.2 = sy + (i : Int) * 1 from by rw [hp]]
      refine ⟨by omega, by omega, by omega, by omega⟩
    · -- diagonal rules
      have hcanon : fr.rule ∈ canonRules := by
        rcases h1 with h1 | h1 | h1 | h1 <;> rw [h1] <;> decide
      obtain ⟨i, hi, hp⟩ := commitWrites_dget_ne fr.rule hcanon fr.word
        (srcOffset fr sx sy).1 (srcOffset fr sx sy).2 g p hne'
      have hi' : (i : Int) < (fr.word.length : Int) := by exact_mod_cast hi
      rw [h2] at hsx1
      rw [h3] at hsy1
      rcases h1 with h1 | h1 | h1 | h1
      · -- dbr: no offsets
        have hd : stepDelta fr.rule = (1, 1) := by rw [h1]; simp [stepDelta]
        have hX : (srcOffset fr sx sy).1 = sx := by simp [srcOffset, h1]
        have hY : (srcOffset fr sx sy).2 = sy := by simp [srcOffset, h1]
        rw [hd, hX, hY] at hp
        rw [show p.1 = sx + (i : Int) * 1 from by rw [hp],
          show p.2 = sy + (i : Int) * 1 from by rw [hp]]
        refine ⟨by omega, by omega, by omega, by omega⟩
      · -- dtl: both offsets
        have hd : stepDelta fr.rule = (-1, -1) := by rw [h1]; simp [stepDelta]
        have hX : (srcOffset fr sx sy).1 = sx + ((fr.word.length : Int) - 1) := by
          simp [srcOffset, h1]
        have hY : (srcOffset fr sx sy).2 = sy + ((fr.word.length : Int) - 1) := by
          simp [srcOffset, h1]
        rw [hd, hX, hY] at hp
        rw [show p.1 = sx + ((fr.word.length : Int) - 1) + (i : Int) * (-1) from
            by rw [hp],
          show p.2 = sy + ((fr.word.length : Int) - 1) + (i : Int) * (-1) from
            by rw [hp]]
        refine ⟨by omega, by omega, by omega, by omega⟩
      · -- dtr: y offset only
        have hd : stepDelta fr.rule = (1, -1) := by rw [h1]; simp [stepDelta]
        have hX : (srcOffset fr sx sy).1 = sx := by simp [srcOffset, h1]
        have hY : (srcOffset fr sx sy).2 = sy + ((fr.word.length : Int) - 1) := by
          simp [srcOffset, h1]
        rw [hd, hX, hY] at hp
        rw [show p.1 = sx + (i : Int) * 1 from by rw [hp],
          show p.2 = sy + ((fr.word.length : Int) - 1) + (i : Int) * (-1) from
            by rw [hp]]
        refine ⟨by omega, by omega, by omega, by omega⟩
      · -- dbl: x offset only
        have hd : stepDelta fr.rule = (-1, 1) := by rw [h1]; simp [stepDelta]
        have hX : (srcOffset fr sx sy).1 = sx + ((fr.word.length : Int) - 1) := by
          simp [srcOffset, h1]
        have hY : (srcOffset fr sx sy).2 = sy := by simp [srcOffset, h1]
        rw [hd, hX, hY] at hp
        rw [show p.1 = sx + ((fr.word.length : Int) - 1) + (i : Int) * (-1) from
            by rw [hp],
          show p.2 = sy + (i : Int) * 1 from by rw [hp]]
        refine ⟨by omega, by omega, by omega, by omega⟩
  refine ⟨hmain, fun hold p hp => ?_⟩
  by_cases hch : dget g' p = dget g p
  · exact hold p (by rw [hch] at hp; exact hp)
  · exact hmain p hch

/-- Witness for C4 at a concrete diagonal placement: "AB" under `dtl` in
an empty 3×3 grid at sampled origin (0, 0) commits to (1, 1) and (0, 0),
both in bounds. -/
theorem C4_commit_in_bounds_witness :
    0 ≤ (((1 : Int), (1 : Int)) : Int × Int).1 ∧
    (((1 : Int), (1 : Int)) : Int × Int).1 < 3 ∧
    0 ≤ (((1 : Int), (1 : Int)) : Int × Int).2 ∧
    (((1 : Int), (1 : Int)) : Int × Int).2 < 3 :=
  (C4_commit_in_bounds [] 3 3 ['A', 'B'] "dtl" 0 0 false none
    ⟨[Cell.letter 'A', Cell.letter 'B'], "dtl", 2, 2⟩
    [((1, 1), Cell.letter 'A'), ((0, 0), Cell.letter 'B')] "dtl"
    rfl (by decide) (by decide) (by decide) (by decide) rfl).1
    ((1 : Int), (1 : Int)) (by decide)

/-! ## Two-character words and the co-occurrence guard (C3) -/

theorem countRules_single (g : GridMap) (b : Char) (x y : Int) :
    ∀ rs : List String, countRules g [b] x y rs = some rs.length := by
  intro rs
  induction rs with
  | nil => rfl
  | cons r rest ih =>
    simp [countRules, search_single, ih, Nat.add_comm]

theorem countOcc_single (g : GridMap) (b : Char) :
    ∀ ps : List (Int × Int), countOcc g [b] ps = some (ps.length * 8) := by
  intro ps
  induction ps with
  | nil => rfl
  | cons p rest ih =>
    simp only [countOcc, countRules_single, ih]
    simp [DIRECTIONS_keys]
    omega

theorem is_coocurence_two (g : GridMap) (a b : Char) (posl : List (Int × Int))
    (hli : letters_idx g a = some posl) (h : posl ≠ []) :
    is_coocurence g [a, b] = some true := by
  have hlen : 0 < posl.length := List.length_pos.mpr h
  have hempty : posl.isEmpty = false := by
    simp [List.isEmpty_iff, h]
  have hde : decide (posl.length * 8 > 1) = true := by
    simp only [decide_eq_true_eq]
    omega
  simp [is_coocurence, hli, hempty, countOcc_single, hde]

theorem letters_idx_some_ne_nil (g : GridMap) (p : Int × Int) (a : Char)
    (hnv : ∀ pc ∈ g, pc.2 ≠ Cell.voidMark)
    (h : dget g p = some (Cell.letter a)) :
    ∃ posl, letters_idx g a = some posl ∧ posl ≠ [] := by
  have hany : (g.any fun pc => decide (pc.2 = Cell.voidMark)) = false := by
    rw [List.any_eq_false]
    intro pc hpc
    simpa using hnv pc hpc
  have hm : (p, Cell.letter a) ∈ g := dget_some_mem g p _ h
  have hp : p ∈ g.filterMap fun pc =>
      if pc.2 = Cell.letter a then some pc.1 else none :=
    List.mem_filterMap.mpr ⟨(p, Cell.letter a), hm, by simp⟩
  refine ⟨_, ?_, List.ne_nil_of_mem hp⟩
  unfold letters_idx
  rw [hany]
  rfl

theorem stepDelta_ne_zero (rule : String) (hr : rule ∈ canonRules) :
    stepDelta rule ≠ (0, 0) := by
  simp only [canonRules, List.mem_cons, List.not_mem_nil, or_false] at hr
  rcases hr with rfl | rfl | rfl | rfl | rfl | rfl <;> simp [stepDelta]

theorem find_rule_core_word (rule : String) (w : List Cell) (fr : FindRuleOut)
    (h : find_rule_core rule w = .ok fr) : fr.word = w ∨ fr.word = w.reverse := by
  unfold find_rule_core at h
  split at h
  · split at h
    · cases h
      right
      rfl
    · cases h
      left
      rfl
  · split at h
    · split at h
      · cases h
        right
        rfl
      · cases h
        left
        rfl
    · split at h
      · cases h
        left
        rfl
      · cases h

theorem find_rule_word_none (rule : String) (word : List Char) (fr : FindRuleOut)
    (hfr : find_rule rule word none = .ok fr) :
    fr.word = word.map Cell.letter ∨ fr.word = (word.map Cell.letter).reverse :=
  find_rule_core_word rule _ fr hfr

theorem attempt_two_char_letter_mem (g : GridMap) (W H : Int) (a b : Char)
    (rule : String) (sx sy : Int) (mc : Bool) (g' : GridMap) (r : String)
    (hrule : rule ∈ validRules)
    (hres : attempt_place g W H [a, b] rule sx sy mc none = .retTrue g' r) :
    ∃ p, dget g' p = some (Cell.letter a) := by
  obtain ⟨fr, hfr, hcanon, _⟩ := find_rule_ok_of_valid rule [a, b] none hrule
  obtain ⟨hcommit, _, _⟩ := attempt_place_retTrue_elim g W H [a, b] rule sx sy mc
    none g' r fr hfr hres
  have hword := find_rule_word_none rule [a, b] fr hfr
  have hstep := rulestep_eq_delta fr.rule hcanon (srcOffset fr sx sy).1
    (srcOffset fr sx sy).2
  have hne : ((srcOffset fr sx sy).1, (srcOffset fr sx sy).2) ≠
      ((srcOffset fr sx sy).1 + (stepDelta fr.rule).1,
       (srcOffset fr sx sy).2 + (stepDelta fr.rule).2) := by
    intro hq
    apply stepDelta_ne_zero fr.rule hcanon
    rw [Prod.mk.injEq] at hq
    obtain ⟨h1, h2⟩ := hq
    rw [Prod.ext_iff]
    constructor <;> (simp only []; omega)
  rcases hword with hw | hw
  · rw [show ([a, b].map Cell.letter) = [Cell.letter a, Cell.letter b] from rfl] at hw
    rw [hw] at hcommit
    simp only [commitWrites, hstep] at hcommit
    rw [Prod.mk.injEq] at hcommit
    obtain ⟨hg', -⟩ := hcommit
    refine ⟨((srcOffset fr sx sy).1, (srcOffset fr sx sy).2), ?_⟩
    rw [← hg']
    rw [dget_dset_ne _ _ _ _ (Ne.symm hne)]
    exact dget_dset_self _ _ _
  · rw [show (([a, b].map Cell.letter).reverse) = [Cell.letter b, Cell.letter a]
      from rfl] at hw
    rw [hw] at hcommit
    simp only [commitWrites, hstep] at hcommit
    rw [Prod.mk.injEq] at hcommit
    obtain ⟨hg', -⟩ := hcommit
    refine ⟨((srcOffset fr sx sy).1 + (stepDelta fr.rule).1,
      (srcOffset fr sx sy).2 + (stepDelta fr.rule).2), ?_⟩
    rw [← hg']
    exact dget_dset_self _ _ _

theorem Engine_attempt_true_grid (e : Engine) (word : List Char) (mc : Bool)
    (marker : Option Char) (d : String × Int × Int) (e' : Engine)
    (h : Engine.attempt e word mc marker d = .ret true e') :
    ∃ g' r, attempt_place e.grid e.width e.height word d.1 d.2.1 d.2.2 mc marker =
      .retTrue g' r ∧ e'.grid = g' := by
  unfold Engine.attempt at h
  cases ha : attempt_place e.grid e.width e.height word d.1 d.2.1 d.2.2 mc marker with
  | retFalse =>
    rw [ha] at h
    cases h
  | raised m g =>
    rw [ha] at h
    cases h
  | retTrue g r =>
    rw [ha] at h
    cases h
    exact ⟨g, r, rfl, by simp [Engine.grid, Engine.setGrid]⟩

theorem tryLoop_true_letter_mem (a b : Char) (mc : Bool)
    (draws : Nat → String × Int × Int)
    (hdr : ∀ i, (draws i).1 ∈ validRules) :
    ∀ (n k : Nat) (e e' : Engine),
      tryLoop [a, b] mc none draws e k n = .ret true e' →
      ∃ p, dget e'.grid p = some (Cell.letter a) := by
  intro n
  induction n with
  | zero =>
    intro k e e' h
    rw [show tryLoop [a, b] mc none draws e k 0 = .ret false e from rfl] at h
    injection h with h1 h2
    cases h1
  | succ n ih =>
    intro k e e' h
    rw [tryLoop_succ] at h
    split at h
    · next e1 heq =>
      cases h
      obtain ⟨g', r, hat, hgr⟩ := Engine_attempt_true_grid e [a, b] mc none
        (draws k) e' heq
      rw [hgr]
      exact attempt_two_char_letter_mem e.grid e.width e.height a b (draws k).1
        (draws k).2.1 (draws k).2.2 mc g' r (hdr k) hat
    · next m e1 heq =>
      cases h
    · next e1 heq =>
      exact ih (k + 1) e1 e' h

theorem place_impl_true_letter_mem (e : Engine) (a b : Char) (c : Bool)
    (draws : Nat → String × Int × Int)
    (hdr : ∀ i, (draws i).1 ∈ validRules) (e' : Engine)
    (h : Engine.place_impl e [a, b] c draws = .ret true e') :
    ∃ p, dget e'.grid p = some (Cell.letter a) := by
  unfold Engine.place_impl at h
  split at h
  · split at h
    · next e1 heq =>
      cases h
      exact tryLoop_true_letter_mem a b true draws hdr e.attempts 0 e e' heq
    · next m e1 heq =>
      cases h
    · next e1 heq =>
      exact tryLoop_true_letter_mem a b false draws hdr e1.attempts e.attempts e1 e' h
  · exact tryLoop_true_letter_mem a b false draws hdr e.attempts 0 e e' h

theorem place_impl_no_exc (e : Engine) (word : List Char) (c : Bool)
    (draws : Nat → String × Int × Int)
    (hdr : ∀ i, (draws i).1 ∈ validRules) :
    (Engine.place_impl e word c draws).isExc = false := by
  unfold Engine.place_impl
  split
  · split
    · rfl
    · next m e1 heq =>
      have h := tryLoop_no_exc word true none draws hdr (Or.inl rfl) e.attempts 0 e
      rw [heq] at h
      cases h
    · exact tryLoop_no_exc word false none draws hdr (Or.inl rfl) _ e.attempts _
  · exact tryLoop_no_exc word false none draws hdr (Or.inl rfl) e.attempts 0 e

/-- Unfolding of `Suchsel.place`. -/
theorem place_eq (e : Engine) (word : List Char) (c : Bool)
    (draws : Nat → String × Int × Int) :
    Engine.place e word c draws =
      (if is_substring e.words word then
        .ret false { e with prevRef := some e.gridRef }
       else
        match Engine.place_impl { e with prevRef := some e.gridRef } word c draws with
        | .exc m e' => .exc m e'
        | .ret false e' => .ret false e'
        | .ret true e' =>
          match is_coocurence e'.grid word with
          | none => .exc "coocurence-lookup" e'
          | some true => .ret false { e' with gridRef := e'.prevRef.getD e'.gridRef }
          | some false => .ret true { e' with words := e'.words ++ [word] }) := rfl

theorem dset_mem (g : GridMap) (p : Int × Int) (v : Cell) :
    ∀ pc ∈ dset g p v, pc ∈ g ∨ pc = (p, v) := by
  induction g with
  | nil =>
    intro pc hpc
    rcases List.mem_singleton.mp hpc with rfl
    exact Or.inr rfl
  | cons qc rest ih =>
    intro pc hpc
    by_cases hq : qc.1 = p
    · rw [dset, if_pos hq] at hpc
      rcases List.mem_cons.mp hpc with rfl | hm
      · exact Or.inr rfl
      · exact Or.inl (List.mem_cons_of_mem qc hm)
    · rw [dset, if_neg hq] at hpc
      rcases List.mem_cons.mp hpc with rfl | hm
      · exact Or.inl (List.mem_cons_self _ _)
      · rcases ih pc hm with hg | he
        · exact Or.inl (List.mem_cons_of_mem qc hg)
        · exact Or.inr he

theorem commitWrites_no_void (rule : String) :
    ∀ (w : List Cell) (x y : Int) (g : GridMap),
      (∀ pc ∈ g, pc.2 ≠ Cell.voidMark) → (∀ wc ∈ w, wc ≠ Cell.voidMark) →
      ∀ pc ∈ (commitWrites rule w x y g).1, pc.2 ≠ Cell.voidMark := by
  intro w
  induction w with
  | nil =>
    intro x y g hg _ pc hpc
    exact hg pc hpc
  | cons wc rest ih =>
    intro x y g hg hw
    have hset : ∀ pc ∈ dset g (x, y) wc, pc.2 ≠ Cell.voidMark := by
      intro pc hpc
      rcases dset_mem g (x, y) wc pc hpc with hm | rfl
      · exact hg pc hm
      · exact hw wc (List.mem_cons_self _ _)
    cases rest with
    | nil =>
      intro pc hpc
      exact hset pc hpc
    | cons wc' ws =>
      rw [show commitWrites rule (wc :: wc' :: ws) x y g =
          (match rulerange_step rule x y with
           | .error e => (dset g (x, y) wc, some e)
           | .ok (x', y') =>
             commitWrites rule (wc' :: ws) x' y' (dset g (x, y) wc)) from rfl]
      cases hstep : rulerange_step rule x y with
      | error e =>
        intro pc hpc
        exact hset pc hpc
      | ok q =>
        exact ih q.1 q.2 (dset g (x, y) wc) hset
          (fun c hc => hw c (List.mem_cons_of_mem wc hc))

theorem attempt_true_no_void (g : GridMap) (W H : Int) (word : List Char)
    (rule : String) (sx sy : Int) (mc : Bool) (g' : GridMap) (r : String)
    (hrule : rule ∈ validRules) (hnv : ∀ pc ∈ g, pc.2 ≠ Cell.voidMark)
    (hres : attempt_place g W H word rule sx sy mc none = .retTrue g' r) :
    ∀ pc ∈ g', pc.2 ≠ Cell.voidMark := by
  obtain ⟨fr, hfr, hcanon, -⟩ := find_rule_ok_of_valid rule word none hrule
  obtain ⟨hcommit, -, -⟩ := attempt_place_retTrue_elim g W H word rule sx sy mc
    none g' r fr hfr hres
  have hcells : ∀ wc ∈ fr.word, wc ≠ Cell.voidMark := by
    rcases find_rule_word_none rule word fr hfr with hw | hw <;> rw [hw]
    · intro wc hwc
      obtain ⟨ch, -, rfl⟩ := List.mem_map.mp hwc
      intro hcontra
      cases hcontra
    · intro wc hwc
      obtain ⟨ch, -, rfl⟩ := List.mem_map.mp (List.mem_reverse.mp hwc)
      intro hcontra
      cases hcontra
  have := commitWrites_no_void fr.rule fr.word (srcOffset fr sx sy).1
    (srcOffset fr sx sy).2 g hnv hcells
  rw [hcommit] at this
  exact this

theorem Engine_attempt_ret_false_eq (e : Engine) (word : List Char) (mc : Bool)
    (marker : Option Char) (d : String × Int × Int) (e1 : Engine)
    (h : Engine.attempt e word mc marker d = .ret false e1) : e1 = e := by
  unfold Engine.attempt at h
  cases ha : attempt_place e.grid e.width e.height word d.1 d.2.1 d.2.2 mc marker with
  | retFalse =>
    rw [ha] at h
    cases h
    rfl
  | retTrue g r =>
    rw [ha] at h
    cases h
  | raised m g =>
    rw [ha] at h
    cases h

theorem tryLoop_ret_false_eq (word : List Char) (mc : Bool)
    (marker : Option Char) (draws : Nat → String × Int × Int) :
    ∀ (n k : Nat) (e e1 : Engine),
      tryLoop word mc marker draws e k n = .ret false e1 → e1 = e := by
  intro n
  induction n with
  | zero =>
    intro k e e1 h
    cases h
    rfl
  | succ n ih =>
    intro k e e1 h
    rw [tryLoop_succ] at h
    split at h
    · cases h
    · cases h
    · next e2 heq =>
      exact (ih (k + 1) e2 e1 h).trans
        (Engine_attempt_ret_false_eq e word mc marker (draws k) e2 heq)

theorem tryLoop_true_no_void (word : List Char) (mc : Bool)
    (draws : Nat → String × Int × Int)
    (hdr : ∀ i, (draws i).1 ∈ validRules) :
    ∀ (n k : Nat) (e e' : Engine),
      (∀ pc ∈ e.grid, pc.2 ≠ Cell.voidMark) →
      tryLoop word mc none draws e k n = .ret true e' →
      ∀ pc ∈ e'.grid, pc.2 ≠ Cell.voidMark := by
  intro n
  induction n with
  | zero =>
    intro k e e' _ h
    injection h with h1 h2
    cases h1
  | succ n ih =>
    intro k e e' hnv h
    rw [tryLoop_succ] at h
    split at h
    · next e1 heq =>
      cases h
      obtain ⟨g', r, hat, hgr⟩ := Engine_attempt_true_grid e word mc none
        (draws k) e' heq
      rw [hgr]
      exact attempt_true_no_void e.grid e.width e.height word (draws k).1
        (draws k).2.1 (draws k).2.2 mc g' r (hdr k) hnv hat
    · next m e1 heq =>
      cases h
    · next e1 heq =>
      have he1 : e1 = e :=
        Engine_attempt_ret_false_eq e word mc none (draws k) e1 heq
      exact ih (k + 1) e1 e' (he1 ▸ hnv) h

theorem place_impl_true_no_void (e : Engine) (word : List Char) (c : Bool)
    (draws : Nat → String × Int × Int)
    (hdr : ∀ i, (draws i).1 ∈ validRules)
    (hnv : ∀ pc ∈ e.grid, pc.2 ≠ Cell.voidMark) (e' : Engine)
    (h : Engine.place_impl e word c draws = .ret true e') :
    ∀ pc ∈ e'.grid, pc.2 ≠ Cell.voidMark := by
  unfold Engine.place_impl at h
  split at h
  · split at h
    · next e1 heq =>
      cases h
      exact tryLoop_true_no_void word true draws hdr e.attempts 0 e e' hnv heq
    · next m e1 heq =>
      cases h
    · next e1 heq =>
      have he1 : e1 = e := tryLoop_ret_false_eq word true none draws e.attempts 0
        e e1 heq
      exact tryLoop_true_no_void word false draws hdr e1.attempts e.attempts e1 e'
        (he1 ▸ hnv) h
  · exact tryLoop_true_no_void word false draws hdr e.attempts 0 e e' hnv h

/-- Counterexample to claim C3: the claim's "place always returns False
for such a word" fails once the grid holds a `VoidPlaceholder` (which any
successful crossword placement leaves behind): the word "AB" is
geometrically committed, but building `_letters_idx` then raises
`TypeError` — `VoidPlaceholder` is unhashable — so `place` raises instead
of returning `False`. -/
theorem C3_counterexample_void_grid_raises :
    (Engine.place { Engine.init 10 10 1 with
        heap := fun _ => [(((5 : Int), (5 : Int)), Cell.voidMark)] }
      ['A', 'B'] false (fun _ => ("lr", 0, 0))).isExc = true := by
  decide

/-- Claim C3, amended: for every two-character word the co-occurrence
guard counts one occurrence per direction (all 8) at every grid cell
holding the word's first character — `search` accepts any one-character
remainder without reading the grid — so, provided the grid holds no
`VoidPlaceholder` (whose unhashability would make the `_letters_idx`
construction raise `TypeError` instead), `place` always returns `False`
for such a word, whatever the draws and prior state. -/
theorem C3_two_char_place_false (e : Engine) (a b : Char) (c : Bool)
    (draws : Nat → String × Int × Int)
    (hdr : ∀ i, (draws i).1 ∈ validRules)
    (hnv : ∀ pc ∈ e.grid, pc.2 ≠ Cell.voidMark) :
    (∀ (g : GridMap) (posl : List (Int × Int)), letters_idx g a = some posl →
      countOcc g [b] posl = some (posl.length * 8)) ∧
    (∀ (g : GridMap) (posl : List (Int × Int)), letters_idx g a = some posl →
      posl ≠ [] → is_coocurence g [a, b] = some true) ∧
    (∃ e', Engine.place e [a, b] c draws = .ret false e') := by
  refine ⟨fun g posl _ => countOcc_single g b posl,
    fun g posl hli h => is_coocurence_two g a b posl hli h, ?_⟩
  by_cases hsub : is_substring e.words [a, b] = true
  · refine ⟨{ e with prevRef := some e.gridRef }, ?_⟩
    rw [place_eq, if_pos hsub]
  · have hno := place_impl_no_exc { e with prevRef := some e.gridRef } [a, b] c
      draws hdr
    cases hres : Engine.place_impl { e with prevRef := some e.gridRef } [a, b] c
      draws with
    | exc m e1 =>
      rw [hres] at hno
      cases hno
    | ret bb e1 =>
      cases bb with
      | false =>
        refine ⟨e1, ?_⟩
        rw [place_eq, if_neg hsub]
        simp only [hres]
      | true =>
        obtain ⟨p, hp⟩ := place_impl_true_letter_mem _ a b c draws hdr e1 hres
        have hnv1 : ∀ pc ∈ e1.grid, pc.2 ≠ Cell.voidMark :=
          place_impl_true_no_void { e with prevRef := some e.gridRef } [a, b] c
            draws hdr hnv e1 hres
        obtain ⟨posl, hli, hposl⟩ := letters_idx_some_ne_nil e1.grid p a hnv1 hp
        have hco : is_coocurence e1.grid [a, b] = some true :=
          is_coocurence_two e1.grid a b posl hli hposl
        refine ⟨{ e1 with gridRef := e1.prevRef.getD e1.gridRef }, ?_⟩
        rw [place_eq, if_neg hsub]
        simp only [hres, hco]

/-- Witness for C3's amended claim: on an empty (void-free) 2×1 engine
with draw `(lr, 0, 0)`, placing "AB" returns `False`. -/
theorem C3_two_char_place_false_witness :
    ∃ e', Engine.place (Engine.init 2 1 1) ['A', 'B'] false
      (fun _ => ("lr", 0, 0)) = .ret false e' :=
  (C3_two_char_place_false (Engine.init 2 1 1) 'A' 'B' false
    (fun _ => ("lr", 0, 0))
    (fun _ => by show ("lr", (0 : Int), (0 : Int)).1 ∈ validRules; decide)
    (fun pc hpc => absurd hpc (List.not_mem_nil pc))).2.2

/-! ## Filling the grid (C9) -/

theorem dget_fillGo_some (f : Nat → Char) :
    ∀ (L : List (Int × Int)) (g : GridMap) (k : Nat) (p : Int × Int) (c : Cell),
      dget g p = some c → dget (fillGo f L g k) p = some c := by
  intro L
  induction L with
  | nil =>
    intro g k p c hp
    exact hp
  | cons q ps ih =>
    intro g k p c hp
    rw [show fillGo f (q :: ps) g k =
        (if dget g q = none then fillGo f ps (dset g q (Cell.letter (f k))) (k + 1)
         else fillGo f ps g k) from rfl]
    split
    · next hq =>
      apply ih
      have hne : q ≠ p := by
        intro he
        rw [he] at hq
        rw [hq] at hp
        cases hp
      rw [dget_dset_ne g p q _ hne]
      exact hp
    · exact ih g k p c hp

theorem dget_fillGo_not_mem (f : Nat → Char) :
    ∀ (L : List (Int × Int)) (g : GridMap) (k : Nat) (p : Int × Int),
      p ∉ L → dget (fillGo f L g k) p = dget g p := by
  intro L
  induction L with
  | nil =>
    intro g k p _
    rfl
  | cons q ps ih =>
    intro g k p hp
    have hpq : p ≠ q := fun he => hp (he ▸ List.mem_cons_self q ps)
    have hps : p ∉ ps := fun hm => hp (List.mem_cons_of_mem q hm)
    rw [show fillGo f (q :: ps) g k =
        (if dget g q = none then fillGo f ps (dset g q (Cell.letter (f k))) (k + 1)
         else fillGo f ps g k) from rfl]
    split
    · rw [ih _ _ p hps, dget_dset_ne g p q _ (Ne.symm hpq)]
    · exact ih g k p hps

theorem dget_fillGo_mem_ne_none (f : Nat → Char) :
    ∀ (L : List (Int × Int)) (g : GridMap) (k : Nat) (p : Int × Int),
      p ∈ L → dget (fillGo f L g k) p ≠ none := by
  intro L
  induction L with
  | nil =>
    intro g k p hp
    cases hp
  | cons q ps ih =>
    intro g k p hp
    rw [show fillGo f (q :: ps) g k =
        (if dget g q = none then fillGo f ps (dset g q (Cell.letter (f k))) (k + 1)
         else fillGo f ps g k) from rfl]
    rcases List.mem_cons.mp hp with rfl | hps
    · split
      · next hq =>
        rw [dget_fillGo_some f ps (dset g p (.letter (f k))) (k + 1) p
          (.letter (f k)) (dget_dset_self g p _)]
        simp
      · next hq =>
        cases hg : dget g p with
        | none => exact absurd hg hq
        | some c =>
          rw [dget_fillGo_some f ps g k p c hg]
          simp
    · split
      · exact ih _ _ p hps
      · exact ih _ _ p hps

theorem countP_dget_dset (g : GridMap) (q : Int × Int) (v : Cell) :
    ∀ L : List (Int × Int), q ∉ L →
      (L.countP fun r => (dget (dset g q v) r).isNone) =
        (L.countP fun r => (dget g r).isNone) := by
  intro L
  induction L with
  | nil =>
    intro _
    rfl
  | cons r rs ih =>
    intro hq
    have hqr : q ≠ r := fun he => hq (he ▸ List.mem_cons_self r rs)
    have hqrs : q ∉ rs := fun hm => hq (List.mem_cons_of_mem r hm)
    rw [List.countP_cons, List.countP_cons, ih hqrs, dget_dset_ne g r q v hqr]

theorem dget_fillGo_absent (f : Nat → Char) :
    ∀ L : List (Int × Int), L.Nodup →
      ∀ (g : GridMap) (k : Nat) (p : Int × Int), p ∈ L → dget g p = none →
      dget (fillGo f L g k) p =
        some (.letter (f (k + ((L.takeWhile fun q => decide (q ≠ p)).countP
          fun q => (dget g q).isNone)))) := by
  intro L
  induction L with
  | nil =>
    intro _ g k p hp
    cases hp
  | cons q ps ih =>
    intro hnd g k p hp hnone
    obtain ⟨hqps, hndps⟩ := List.nodup_cons.mp hnd
    by_cases hpq : p = q
    · subst hpq
      have htw : ((p :: ps).takeWhile fun r => decide (r ≠ p)) = [] := by
        simp [List.takeWhile_cons]
      rw [htw]
      simp only [List.countP_nil, Nat.add_zero]
      rw [show fillGo f (p :: ps) g k =
          (if dget g p = none then fillGo f ps (dset g p (Cell.letter (f k))) (k + 1)
           else fillGo f ps g k) from rfl, hnone, if_pos rfl]
      rw [dget_fillGo_not_mem f ps _ _ p hqps]
      exact dget_dset_self g p _
    · have hpps : p ∈ ps := by
        rcases List.mem_cons.mp hp with he | hm
        · exact absurd he hpq
        · exact hm
      have hqp : q ≠ p := fun he => hpq he.symm
      have htw : ((q :: ps).takeWhile fun r => decide (r ≠ p)) =
          q :: (ps.takeWhile fun r => decide (r ≠ p)) := by
        simp [List.takeWhile_cons, hqp]
      rw [htw, List.countP_cons]
      have hqtw : q ∉ (ps.takeWhile fun r => decide (r ≠ p)) :=
        fun hm => hqps (List.IsPrefix.subset ( List.takeWhile_prefix _) hm)
      cases hq : dget g q with
      | none =>
        rw [show fillGo f (q :: ps) g k =
          (if dget g q = none then fillGo f ps (dset g q (Cell.letter (f k))) (k + 1)
           else fillGo f ps g k) from rfl]
        rw [hq, if_pos rfl]
        have hnone' : dget (dset g q (.letter (f k))) p = none := by
          rw [dget_dset_ne g p q _ (fun he => hpq he.symm)]
          exact hnone
        rw [ih hndps (dset g q (.letter (f k))) (k + 1) p hpps hnone',
          countP_dget_dset g q (.letter (f k)) _ hqtw]
        simp only [hq, Option.isNone_none, eq_self_iff_true, if_true]
        rw [show ∀ m : Nat, k + 1 + m = k + (m + 1) from fun m => by omega]
      | some c =>
        rw [show fillGo f (q :: ps) g k =
          (if dget g q = none then fillGo f ps (dset g q (Cell.letter (f k))) (k + 1)
           else fillGo f ps g k) from rfl]
        rw [hq, if_neg (Option.some_ne_none c)]
        rw [ih hndps g k p hpps hnone]
        simp only [hq, Option.isNone_some, Bool.false_eq_true, if_false, Nat.add_zero]

theorem rowMajor_nodup (w h : Nat) : (rowMajor w h).Nodup := by
  unfold rowMajor
  rw [List.nodup_flatten]
  constructor
  · intro l hl
    rw [List.mem_map] at hl
    obtain ⟨y, _, rfl⟩ := hl
    exact List.Nodup.map (fun a b hab => by simpa using congrArg Prod.fst hab)
      (List.nodup_range w)
  · rw [List.pairwise_map]
    apply List.Pairwise.imp ?_ (List.pairwise_lt_range h)
    intro y1 y2 hlt a ha1 ha2
    rw [List.mem_map] at ha1 ha2
    obtain ⟨x1, _, rfl⟩ := ha1
    obtain ⟨x2, _, heq⟩ := ha2
    rw [Prod.mk.injEq] at heq
    obtain ⟨-, h2⟩ := heq
    have h3 := Int.ofNat.inj h2
    omega

theorem mem_rowMajor (w h x y : Nat) (hx : x < w) (hy : y < h) :
    ((x : Int), (y : Int)) ∈ rowMajor w h := by
  unfold rowMajor
  rw [List.mem_flatten]
  refine ⟨(List.range w).map fun x => (Int.ofNat x, Int.ofNat y), ?_, ?_⟩
  · exact List.mem_map.mpr ⟨y, List.mem_range.mpr hy, rfl⟩
  · exact List.mem_map.mpr ⟨x, List.mem_range.mpr hx, rfl⟩

/-- Claim C9: after `fill`, every coordinate of the bounding rectangle is
non-absent; `fill` walks the rectangle in row-major order, draws one
character from the filler source for each previously-absent cell (the
k-th absent cell in row-major order receives the k-th drawn character),
and leaves every previously-occupied cell unchanged. -/
theorem C9_fill_covers (g : GridMap) (w h : Nat) (f : Nat → Char) :
    (∀ x y : Nat, x < w → y < h →
      dget (fill g w h f) ((x : Int), (y : Int)) ≠ none) ∧
    (∀ (p : Int × Int) (c : Cell), dget g p = some c →
      dget (fill g w h f) p = some c) ∧
    (∀ x y : Nat, x < w → y < h → dget g ((x : Int), (y : Int)) = none →
      dget (fill g w h f) ((x : Int), (y : Int)) =
        some (.letter (f (absentBefore g (rowMajor w h)
          ((x : Int), (y : Int)))))) := by
  refine ⟨?_, ?_, ?_⟩
  · intro x y hx hy
    exact dget_fillGo_mem_ne_none f (rowMajor w h) g 0 _ (mem_rowMajor w h x y hx hy)
  · intro p c hp
    exact dget_fillGo_some f (rowMajor w h) g 0 p c hp
  · intro x y hx hy hnone
    have hres := dget_fillGo_absent f (rowMajor w h) (rowMajor_nodup w h) g 0 _
      (mem_rowMajor w h x y hx hy) hnone
    simpa [fill, absentBefore] using hres

/-- Witness for C9: a 2×2 grid with one occupied cell; the cell (1, 0) is
the first absent cell in row-major order and receives the first filler
character. -/
theorem C9_fill_covers_witness :
    dget (fill [(((0 : Int), (0 : Int)), Cell.letter 'A')] 2 2 (fun _ => 'Z'))
        ((1 : Int), (0 : Int)) =
      some (.letter ((fun _ => 'Z')
        (absentBefore [(((0 : Int), (0 : Int)), Cell.letter 'A')] (rowMajor 2 2)
          ((1 : Int), (0 : Int))))) :=
  (C9_fill_covers [(((0 : Int), (0 : Int)), Cell.letter 'A')] 2 2
    (fun _ => 'Z')).2.2 1 0 (by decide) (by decide) (by decide)
